import Mathlib

/-!
Shallow embedding of the stock/price synchronization pipeline of
`seller.py` (Ozon client) and `market.py` (Yandex Market client).

Vendor rows are spreadsheet rows; the fields `code`, `quantity`, `price`
embed the row keys "Код", "Количество", "Цена".  All values arrive as
strings (the source coerces with `str(...)` before use).  Python
exceptions are embedded as `Except PyError`; Python's mutation of the
`offer_ids` list argument inside `create_stocks` is embedded by returning
the remaining (post-mutation) list alongside the produced stocks.
-/

set_option autoImplicit false

namespace SellerApis

/-- Python exceptions raised by the embedded fragments. -/
inductive PyError
  | valueError
  deriving DecidableEq, Repr

/-- Value of a non-empty decimal digit list, most significant first. -/
def digitsVal (cs : List Char) : Nat :=
  cs.foldl (fun a c => a * 10 + (c.toNat - '0'.toNat)) 0

/-- The characters Python's `str.strip()` removes. -/
def pyWhitespace (c : Char) : Bool :=
  c = ' ' || c = '\t' || c = '\n' || c = '\r' || c = '\x0b' || c = '\x0c'

/-- Strip `pyWhitespace` from both ends of a character list. -/
def stripChars (cs : List Char) : List Char :=
  ((cs.dropWhile pyWhitespace).reverse.dropWhile pyWhitespace).reverse

/-- Model of Python's `int(s)` on a string: strip surrounding whitespace,
allow one optional sign, then require a non-empty run of decimal digits.
Returns `none` where Python raises `ValueError`. -/
def pyStrToInt (s : String) : Option Int :=
  match stripChars s.toList with
  | '+' :: rest =>
      if rest ≠ [] ∧ rest.all Char.isDigit then some (digitsVal rest) else none
  | '-' :: rest =>
      if rest ≠ [] ∧ rest.all Char.isDigit then some (-(digitsVal rest : Int)) else none
  | cs =>
      if cs ≠ [] ∧ cs.all Char.isDigit then some (digitsVal cs) else none

/-- One row of the vendor feed (`watch_remnants`): `code` is "Код",
`quantity` is "Количество", `price` is "Цена". -/
structure VendorRow where
  code : String
  quantity : String
  price : String
  deriving DecidableEq, Repr

/-- The quantity rule inlined in `create_stocks` (seller.py lines 232-238,
identically market.py lines 195-201): `">10" → 100`, `"1" → 0`, otherwise
Python `int(...)`, which raises `ValueError` on non-numeric input. -/
def normalize_quantity (q : String) : Except PyError Int :=
  if q = ">10" then .ok 100
  else if q = "1" then .ok 0
  else
    match pyStrToInt q with
    | some k => .ok k
    | none => .error .valueError

/-- `price_conversion` (seller.py line 299):
`re.sub("[^0-9]", "", price.split(".")[0])` — keep the part before the
first `.` (`split(".")[0]` is the prefix before the first `.`, and the
whole string when there is no `.`, as `str.split` then returns a
one-element list) and drop every non-digit.  Total on strings: no
exception is possible. -/
def price_conversion (price : String) : String :=
  String.mk ((price.toList.takeWhile (fun c => c != '.')).filter Char.isDigit)

/-- Chunks of size `n` (`lst[i : i + n]` for `i = 0, n, 2n, ...`); meant
for `n ≥ 1`, where `(x :: xs).drop n = xs.drop (n - 1)`. -/
def chunksOf {α : Type} (n : Nat) : List α → List (List α)
  | [] => []
  | x :: xs => (x :: xs).take n :: chunksOf n (xs.drop (n - 1))
termination_by l => l.length
decreasing_by
  simp only [List.length_cons, List.length_drop]
  omega

/-- `divide` (seller.py lines 302-321), forced by `list(...)` at every call
site: `range(0, len(lst), n)` raises `ValueError` when the step `n` is 0,
is empty when `n < 0` (start 0, non-negative stop, negative step), and
otherwise steps through `0, n, 2n, ...`, each index yielding
`lst[i : i + n]`. -/
def divide {α : Type} (lst : List α) (n : Int) : Except PyError (List (List α)) :=
  if n = 0 then .error .valueError
  else if n < 0 then .ok []
  else .ok (chunksOf n.toNat lst)

namespace seller

/-- An Ozon stock record (seller.py line 239). -/
structure StockRecord where
  offer_id : String
  stock : Int
  deriving DecidableEq, Repr

/-- The matching loop of `create_stocks` (seller.py lines 230-240): for each
vendor row whose code is in `offer_ids`, normalize the quantity, emit a
record and remove the code from `offer_ids` (`list.remove` deletes the
first occurrence).  Returns the matched records together with the
remaining (mutated) `offer_ids`. -/
def create_stocks_go (rows : List VendorRow) (offer_ids : List String) :
    Except PyError (List StockRecord × List String) :=
  match rows with
  | [] => .ok ([], offer_ids)
  | w :: ws =>
    if w.code ∈ offer_ids then
      match normalize_quantity w.quantity with
      | .error e => .error e
      | .ok st =>
        match create_stocks_go ws (offer_ids.erase w.code) with
        | .error e => .error e
        | .ok (stocks, rem) => .ok (⟨w.code, st⟩ :: stocks, rem)
    else create_stocks_go ws offer_ids

/-- `create_stocks` (seller.py lines 207-244): matched records first, then a
zero-stock record for every id still left in `offer_ids`.  The second
component is the caller-visible final state of the mutated `offer_ids`
list. -/
def create_stocks (rows : List VendorRow) (offer_ids : List String) :
    Except PyError (List StockRecord × List String) :=
  match create_stocks_go rows offer_ids with
  | .error e => .error e
  | .ok (matched, rem) => .ok (matched ++ rem.map (fun i => ⟨i, 0⟩), rem)

/-- An Ozon price record (seller.py lines 271-277).  `price` is the digit
string returned by `price_conversion`. -/
structure PriceRecord where
  auto_action_enabled : String
  currency_code : String
  offer_id : String
  old_price : String
  price : String
  deriving DecidableEq, Repr

/-- `create_prices` (seller.py lines 247-279): one record per vendor row
whose code is in `offer_ids`; `offer_ids` is not mutated here, so
duplicate vendor rows yield duplicate records. -/
def create_prices (rows : List VendorRow) (offer_ids : List String) :
    List PriceRecord :=
  match rows with
  | [] => []
  | w :: ws =>
    if w.code ∈ offer_ids then
      ⟨"UNKNOWN", "RUB", w.code, "0", price_conversion w.price⟩ ::
        create_prices ws offer_ids
    else create_prices ws offer_ids

/-- The price half of `main` (seller.py lines 394-401): `offer_ids` is
fetched once; `create_stocks` mutates that list in place, and
`create_prices` is then called with the mutated list. -/
def main_prices (rows : List VendorRow) (offer_ids : List String) :
    Except PyError (List PriceRecord) :=
  match create_stocks rows offer_ids with
  | .error e => .error e
  | .ok (_, rem) => .ok (create_prices rows rem)

/-- One page of the Ozon product listing (`get_product_list` result,
seller.py lines 14-56): each listed product is represented by its
`offer_id` (the only field `get_offer_ids` reads), plus the page's
reported `total` and its `last_id` cursor. -/
structure Page where
  items : List String
  total : Nat
  last_id : String
  deriving DecidableEq, Repr

/-- The pagination loop of `get_offer_ids` (seller.py lines 78-86) run
against a fixed script of page responses: extend the accumulator with the
page's items and stop as soon as the reported `total` equals the
accumulated length — the `last_id` cursor is never tested.  Returns the
accumulated items and the number of pages consumed; `none` when the
script is exhausted before the loop breaks (the Python loop would issue
yet another request). -/
def get_offer_ids_go (pages : List Page) (acc : List String) :
    Option (List String × Nat) :=
  match pages with
  | [] => none
  | p :: ps =>
    if p.total = (acc ++ p.items).length then some (acc ++ p.items, 1)
    else (get_offer_ids_go ps (acc ++ p.items)).map (fun r => (r.1, r.2 + 1))

/-- `get_offer_ids` (seller.py lines 59-90): the accumulated products'
offer ids, in page order. -/
def get_offer_ids (pages : List Page) : Option (List String) :=
  (get_offer_ids_go pages []).map Prod.fst

end seller

namespace market

/-- A Yandex Market stock item (market.py lines 206-213). -/
structure StockItem where
  count : Int
  type : String
  updatedAt : String
  deriving DecidableEq, Repr

/-- A Yandex Market stock record (market.py lines 202-214). -/
structure StockRecord where
  sku : String
  warehouseId : String
  items : List StockItem
  deriving DecidableEq, Repr

/-- The matching loop of `create_stocks` (market.py lines 193-215): same
structure as the Ozon one, with the warehouse id and the (run-constant)
`date` timestamp stamped on every record. -/
def create_stocks_go (rows : List VendorRow) (offer_ids : List String)
    (warehouse_id date : String) :
    Except PyError (List StockRecord × List String) :=
  match rows with
  | [] => .ok ([], offer_ids)
  | w :: ws =>
    if w.code ∈ offer_ids then
      match normalize_quantity w.quantity with
      | .error e => .error e
      | .ok st =>
        match create_stocks_go ws (offer_ids.erase w.code) warehouse_id date with
        | .error e => .error e
        | .ok (stocks, rem) =>
          .ok (⟨w.code, warehouse_id, [⟨st, "FIT", date⟩]⟩ :: stocks, rem)
    else create_stocks_go ws offer_ids warehouse_id date

/-- `create_stocks` (market.py lines 165-231): matched records first, then
a zero-count record for every id left in `offer_ids`; second component is
the final state of the mutated `offer_ids` list. -/
def create_stocks (rows : List VendorRow) (offer_ids : List String)
    (warehouse_id date : String) :
    Except PyError (List StockRecord × List String) :=
  match create_stocks_go rows offer_ids warehouse_id date with
  | .error e => .error e
  | .ok (matched, rem) =>
    .ok (matched ++ rem.map (fun i => ⟨i, warehouse_id, [⟨0, "FIT", date⟩]⟩), rem)

/-- The `price` sub-object of a Yandex Market price record
(market.py lines 262-267). -/
structure PriceValue where
  value : Int
  currencyId : String
  deriving DecidableEq, Repr

/-- A Yandex Market price record (market.py lines 259-270). -/
structure PriceRecord where
  id : String
  price : PriceValue
  deriving DecidableEq, Repr

/-- `create_prices` (market.py lines 234-272): one record per vendor row
whose code is in `offer_ids`; the value is `int(price_conversion(...))`,
which raises `ValueError` when the digit string is empty. -/
def create_prices (rows : List VendorRow) (offer_ids : List String) :
    Except PyError (List PriceRecord) :=
  match rows with
  | [] => .ok []
  | w :: ws =>
    if w.code ∈ offer_ids then
      match pyStrToInt (price_conversion w.price) with
      | none => .error .valueError
      | some v =>
        match create_prices ws offer_ids with
        | .error e => .error e
        | .ok ps => .ok (⟨w.code, ⟨v, "RUR"⟩⟩ :: ps)
    else create_prices ws offer_ids

/-- One page of the Yandex Market listing (`get_product_list` result,
market.py lines 14-51): each entry is represented by its `shopSku` (the
only field `get_offer_ids` reads), plus the page's `nextPageToken`; a
missing token and an empty token are both falsy in Python and are both
embedded as `""`. -/
structure Page where
  entries : List String
  nextPageToken : String
  deriving DecidableEq, Repr

/-- The pagination loop of `get_offer_ids` (market.py lines 151-158) run
against a fixed script of page responses: extend the accumulator and stop
as soon as the page's `nextPageToken` is falsy — no total is ever
consulted.  Returns the accumulated entries and the number of pages
consumed; `none` when the script runs out first. -/
def get_offer_ids_go (pages : List Page) (acc : List String) :
    Option (List String × Nat) :=
  match pages with
  | [] => none
  | p :: ps =>
    if p.nextPageToken = "" then some (acc ++ p.entries, 1)
    else (get_offer_ids_go ps (acc ++ p.entries)).map (fun r => (r.1, r.2 + 1))

/-- `get_offer_ids` (market.py lines 131-162): the accumulated entries'
shop skus, in page order. -/
def get_offer_ids (pages : List Page) : Option (List String) :=
  (get_offer_ids_go pages []).map Prod.fst

end market

/-- Modelled from the spec: index (1-based count of consumed pages) of the
first page at which `stop` holds, where `stop` receives the page and the
item count accumulated through that page (`len p` items per page on top of
the count so far).  Used to state which stop condition each pagination
loop implements. -/
def firstStopIdx {α : Type} (stop : α → Nat → Bool) (len : α → Nat) :
    List α → Nat → Option Nat
  | [], _ => none
  | p :: ps, k =>
    if stop p (k + len p) then some 1
    else (firstStopIdx stop len ps (k + len p)).map (· + 1)

/-- Modelled from the spec: "stops when the platform signals no more pages
(empty/absent next-token, or reported total reached)", instantiated for
the Ozon page shape. -/
def specStopSeller (p : seller.Page) (accumulated : Nat) : Bool :=
  p.last_id = "" || p.total = accumulated

/-- The stop condition the Ozon loop actually tests (seller.py line 85). -/
def sellerStop (p : seller.Page) (accumulated : Nat) : Bool :=
  p.total = accumulated

/-- The stop condition the Yandex loop actually tests (market.py line 157). -/
def marketStop (p : market.Page) (_accumulated : Nat) : Bool :=
  p.nextPageToken = ""

namespace seller

theorem create_stocks_go_perm (rows : List VendorRow) :
    ∀ (ids : List String) (st : List StockRecord) (rem : List String),
      create_stocks_go rows ids = .ok (st, rem) →
      (st.map StockRecord.offer_id ++ rem).Perm ids ∧ rem.Sublist ids := by
  induction rows with
  | nil =>
    intro ids st rem h
    simp only [create_stocks_go, Except.ok.injEq, Prod.mk.injEq] at h
    obtain ⟨h1, h2⟩ := h
    subst h1; subst h2
    exact ⟨by simp, List.Sublist.refl ids⟩
  | cons w ws ih =>
    intro ids st rem h
    rw [create_stocks_go] at h
    by_cases hc : w.code ∈ ids
    · rw [if_pos hc] at h
      cases hq : normalize_quantity w.quantity with
      | error e => rw [hq] at h; cases h
      | ok q =>
        rw [hq] at h
        cases hgo : create_stocks_go ws (ids.erase w.code) with
        | error e => rw [hgo] at h; cases h
        | ok pr =>
          obtain ⟨st', rem'⟩ := pr
          rw [hgo] at h
          simp only [Except.ok.injEq, Prod.mk.injEq] at h
          obtain ⟨h1, h2⟩ := h
          subst h1; subst h2
          obtain ⟨hperm, hsub⟩ := ih (ids.erase w.code) st' rem' hgo
          refine ⟨?_, hsub.trans (List.erase_sublist w.code ids)⟩
          have h1 : ((⟨w.code, q⟩ :: st' : List StockRecord).map StockRecord.offer_id
              ++ rem') = w.code :: (st'.map StockRecord.offer_id ++ rem') := by simp
          rw [h1]
          exact (hperm.cons w.code).trans (List.perm_cons_erase hc).symm
    · rw [if_neg hc] at h
      exact ih ids st rem h

theorem create_stocks_go_matched_sublist (rows : List VendorRow) :
    ∀ (ids : List String) (st : List StockRecord) (rem : List String),
      create_stocks_go rows ids = .ok (st, rem) →
      (st.map StockRecord.offer_id).Sublist (rows.map VendorRow.code) := by
  induction rows with
  | nil =>
    intro ids st rem h
    simp only [create_stocks_go, Except.ok.injEq, Prod.mk.injEq] at h
    obtain ⟨h1, h2⟩ := h
    subst h1
    simp
  | cons w ws ih =>
    intro ids st rem h
    rw [create_stocks_go] at h
    by_cases hc : w.code ∈ ids
    · rw [if_pos hc] at h
      cases hq : normalize_quantity w.quantity with
      | error e => rw [hq] at h; cases h
      | ok q =>
        rw [hq] at h
        cases hgo : create_stocks_go ws (ids.erase w.code) with
        | error e => rw [hgo] at h; cases h
        | ok pr =>
          obtain ⟨st', rem'⟩ := pr
          rw [hgo] at h
          simp only [Except.ok.injEq, Prod.mk.injEq] at h
          obtain ⟨h1, h2⟩ := h
          subst h1
          simpa using (ih (ids.erase w.code) st' rem' hgo).cons₂ w.code
    · rw [if_neg hc] at h
      exact (ih ids st rem h).cons w.code

theorem create_stocks_go_counts (rows : List VendorRow) :
    ∀ (ids : List String) (st : List StockRecord) (rem : List String),
      create_stocks_go rows ids = .ok (st, rem) →
      ∀ s ∈ st, ∃ w ∈ rows, normalize_quantity w.quantity = .ok s.stock := by
  induction rows with
  | nil =>
    intro ids st rem h
    simp only [create_stocks_go, Except.ok.injEq, Prod.mk.injEq] at h
    obtain ⟨h1, h2⟩ := h
    subst h1
    simp
  | cons w ws ih =>
    intro ids st rem h
    rw [create_stocks_go] at h
    by_cases hc : w.code ∈ ids
    · rw [if_pos hc] at h
      cases hq : normalize_quantity w.quantity with
      | error e => rw [hq] at h; cases h
      | ok q =>
        rw [hq] at h
        cases hgo : create_stocks_go ws (ids.erase w.code) with
        | error e => rw [hgo] at h; cases h
        | ok pr =>
          obtain ⟨st', rem'⟩ := pr
          rw [hgo] at h
          simp only [Except.ok.injEq, Prod.mk.injEq] at h
          obtain ⟨h1, h2⟩ := h
          subst h1
          intro s hs
          rcases List.mem_cons.mp hs with hs | hs
          · exact ⟨w, List.mem_cons_self w ws, by rw [hs]; exact hq⟩
          · obtain ⟨w', hw', hnw'⟩ := ih (ids.erase w.code) st' rem' hgo s hs
            exact ⟨w', List.mem_cons_of_mem w hw', hnw'⟩
    · rw [if_neg hc] at h
      intro s hs
      obtain ⟨w', hw', hnw'⟩ := ih ids st rem h s hs
      exact ⟨w', List.mem_cons_of_mem w hw', hnw'⟩

theorem create_stocks_go_code_notin_rem (rows : List VendorRow) :
    ∀ (ids : List String) (st : List StockRecord) (rem : List String),
      ids.Nodup → create_stocks_go rows ids = .ok (st, rem) →
      ∀ w ∈ rows, w.code ∉ rem := by
  induction rows with
  | nil => intro ids st rem _ _ w hw; cases hw
  | cons w ws ih =>
    intro ids st rem hnd h
    rw [create_stocks_go] at h
    by_cases hc : w.code ∈ ids
    · rw [if_pos hc] at h
      cases hq : normalize_quantity w.quantity with
      | error e => rw [hq] at h; cases h
      | ok q =>
        rw [hq] at h
        cases hgo : create_stocks_go ws (ids.erase w.code) with
        | error e => rw [hgo] at h; cases h
        | ok pr =>
          obtain ⟨st', rem'⟩ := pr
          rw [hgo] at h
          simp only [Except.ok.injEq, Prod.mk.injEq] at h
          obtain ⟨_, h2⟩ := h
          subst h2
          intro v hv
          rcases List.mem_cons.mp hv with hv | hv
          · rw [hv]
            intro hmem
            exact hnd.not_mem_erase
              ((create_stocks_go_perm ws _ _ _ hgo).2.subset hmem)
          · exact ih (ids.erase w.code) st' rem' (hnd.erase w.code) hgo v hv
    · rw [if_neg hc] at h
      intro v hv
      rcases List.mem_cons.mp hv with hv | hv
      · rw [hv]
        intro hmem
        exact hc ((create_stocks_go_perm ws _ _ _ h).2.subset hmem)
      · exact ih ids st rem hnd h v hv

theorem create_prices_eq (rows : List VendorRow) (ids : List String) :
    create_prices rows ids
      = (rows.filter (fun w => decide (w.code ∈ ids))).map
          (fun w => ⟨"UNKNOWN", "RUB", w.code, "0", price_conversion w.price⟩) := by
  induction rows with
  | nil => rfl
  | cons w ws ih =>
    rw [create_prices]
    by_cases hc : w.code ∈ ids
    · rw [if_pos hc]
      simp [List.filter_cons, hc, ih]
    · rw [if_neg hc]
      simp [List.filter_cons, hc, ih]

end seller

namespace market

theorem create_stocks_go_perm_market (rows : List VendorRow) (wid date : String) :
    ∀ (ids : List String) (st : List StockRecord) (rem : List String),
      create_stocks_go rows ids wid date = .ok (st, rem) →
      (st.map StockRecord.sku ++ rem).Perm ids ∧ rem.Sublist ids := by
  induction rows with
  | nil =>
    intro ids st rem h
    simp only [create_stocks_go, Except.ok.injEq, Prod.mk.injEq] at h
    obtain ⟨h1, h2⟩ := h
    subst h1; subst h2
    exact ⟨by simp, List.Sublist.refl ids⟩
  | cons w ws ih =>
    intro ids st rem h
    rw [create_stocks_go] at h
    by_cases hc : w.code ∈ ids
    · rw [if_pos hc] at h
      cases hq : normalize_quantity w.quantity with
      | error e => rw [hq] at h; cases h
      | ok q =>
        rw [hq] at h
        cases hgo : create_stocks_go ws (ids.erase w.code) wid date with
        | error e => rw [hgo] at h; cases h
        | ok pr =>
          obtain ⟨st', rem'⟩ := pr
          rw [hgo] at h
          simp only [Except.ok.injEq, Prod.mk.injEq] at h
          obtain ⟨h1, h2⟩ := h
          subst h1; subst h2
          obtain ⟨hperm, hsub⟩ := ih (ids.erase w.code) st' rem' hgo
          refine ⟨?_, hsub.trans (List.erase_sublist w.code ids)⟩
          have h1 : ((⟨w.code, wid, [⟨q, "FIT", date⟩]⟩ :: st' :
                List StockRecord).map StockRecord.sku ++ rem')
              = w.code :: (st'.map StockRecord.sku ++ rem') := by simp
          rw [h1]
          exact (hperm.cons w.code).trans (List.perm_cons_erase hc).symm
    · rw [if_neg hc] at h
      exact ih ids st rem h

theorem create_stocks_go_counts_market (rows : List VendorRow) (wid date : String) :
    ∀ (ids : List String) (st : List StockRecord) (rem : List String),
      create_stocks_go rows ids wid date = .ok (st, rem) →
      ∀ s ∈ st, ∀ it ∈ s.items, ∃ w ∈ rows, normalize_quantity w.quantity = .ok it.count := by
  induction rows with
  | nil =>
    intro ids st rem h
    simp only [create_stocks_go, Except.ok.injEq, Prod.mk.injEq] at h
    obtain ⟨h1, h2⟩ := h
    subst h1
    simp
  | cons w ws ih =>
    intro ids st rem h
    rw [create_stocks_go] at h
    by_cases hc : w.code ∈ ids
    · rw [if_pos hc] at h
      cases hq : normalize_quantity w.quantity with
      | error e => rw [hq] at h; cases h
      | ok q =>
        rw [hq] at h
        cases hgo : create_stocks_go ws (ids.erase w.code) wid date with
        | error e => rw [hgo] at h; cases h
        | ok pr =>
          obtain ⟨st', rem'⟩ := pr
          rw [hgo] at h
          simp only [Except.ok.injEq, Prod.mk.injEq] at h
          obtain ⟨h1, h2⟩ := h
          subst h1
          intro s hs it hit
          rcases List.mem_cons.mp hs with hs | hs
          · rw [hs] at hit
            simp only [List.mem_singleton] at hit
            refine ⟨w, List.mem_cons_self w ws, ?_⟩
            rw [hit]
            exact hq
          · obtain ⟨w', hw', hnw'⟩ := ih (ids.erase w.code) st' rem' hgo s hs it hit
            exact ⟨w', List.mem_cons_of_mem w hw', hnw'⟩
    · rw [if_neg hc] at h
      intro s hs it hit
      obtain ⟨w', hw', hnw'⟩ := ih ids st rem h s hs it hit
      exact ⟨w', List.mem_cons_of_mem w hw', hnw'⟩

theorem create_prices_eq_market (rows : List VendorRow) (ids : List String) :
    ∀ ps, create_prices rows ids = .ok ps →
      ps = (rows.filter (fun w => decide (w.code ∈ ids))).map
          (fun w => ⟨w.code, ⟨((pyStrToInt (price_conversion w.price)).getD 0), "RUR"⟩⟩) := by
  induction rows with
  | nil =>
    intro ps h
    simp only [create_prices, Except.ok.injEq] at h
    rw [← h]
    rfl
  | cons w ws ih =>
    intro ps h
    rw [create_prices] at h
    by_cases hc : w.code ∈ ids
    · rw [if_pos hc] at h
      cases hv : pyStrToInt (price_conversion w.price) with
      | none => rw [hv] at h; cases h
      | some v =>
        rw [hv] at h
        cases hps : create_prices ws ids with
        | error e => rw [hps] at h; cases h
        | ok ps' =>
          rw [hps] at h
          simp only [Except.ok.injEq] at h
          subst h
          rw [ih ps' hps]
          simp [List.filter_cons, hc, hv]
    · rw [if_neg hc] at h
      rw [ih ps h]
      simp [List.filter_cons, hc]

end market

theorem chunksOf_eq_nil_iff {α : Type} (n : Nat) (l : List α) :
    chunksOf n l = [] ↔ l = [] := by
  cases l with
  | nil => simp [chunksOf]
  | cons x xs => simp [chunksOf]

theorem chunksOf_join {α : Type} (n : Nat) (hn : 0 < n) (l : List α) :
    (chunksOf n l).flatten = l := by
  have H : ∀ (m : Nat) (l : List α), l.length ≤ m → (chunksOf n l).flatten = l := by
    intro m
    induction m with
    | zero =>
      intro l hl
      have hnil : l = [] := List.eq_nil_of_length_eq_zero (Nat.le_zero.mp hl)
      rw [hnil]
      simp [chunksOf]
    | succ m ih =>
      intro l hl
      cases l with
      | nil => simp [chunksOf]
      | cons x xs =>
        rw [chunksOf]
        have hdrop : xs.drop (n - 1) = (x :: xs).drop n := by
          cases n with
          | zero => exact absurd hn (lt_irrefl 0)
          | succ k => simp
        have ihx : (chunksOf n (xs.drop (n - 1))).flatten = xs.drop (n - 1) := by
          refine ih (xs.drop (n - 1)) ?_
          simp only [List.length_drop]
          simp only [List.length_cons] at hl
          omega
        rw [List.flatten_cons, ihx, hdrop, List.take_append_drop]
  exact H l.length l le_rfl

theorem chunksOf_dropLast_length {α : Type} (n : Nat) (hn : 0 < n) (l : List α) :
    ∀ c ∈ (chunksOf n l).dropLast, c.length = n := by
  have H : ∀ (m : Nat) (l : List α), l.length ≤ m →
      ∀ c ∈ (chunksOf n l).dropLast, c.length = n := by
    intro m
    induction m with
    | zero =>
      intro l hl
      have hnil : l = [] := List.eq_nil_of_length_eq_zero (Nat.le_zero.mp hl)
      rw [hnil]
      simp [chunksOf]
    | succ m ih =>
      intro l hl
      cases l with
      | nil => simp [chunksOf]
      | cons x xs =>
        rw [chunksOf]
        cases hrest : chunksOf n (xs.drop (n - 1)) with
        | nil => simp
        | cons y ys =>
          intro c hc
          rw [List.dropLast_cons₂] at hc
          rcases List.mem_cons.mp hc with hc | hc
          · rw [hc]
            have hne : xs.drop (n - 1) ≠ [] := by
              intro hnil
              rw [hnil] at hrest
              simp [chunksOf] at hrest
            have hlen : n ≤ xs.length + 1 := by
              have := List.length_pos.mpr hne
              simp only [List.length_drop] at this
              omega
            simp only [List.length_take, List.length_cons]
            omega
          · rw [← hrest] at hc
            refine ih (xs.drop (n - 1)) ?_ c hc
            simp only [List.length_drop]
            simp only [List.length_cons] at hl
            omega
  exact H l.length l le_rfl

theorem isDigit_false_of_pyWhitespace (c : Char) (hw : pyWhitespace c = true) :
    c.isDigit = false := by
  simp only [pyWhitespace, Bool.or_eq_true, decide_eq_true_eq] at hw
  rcases hw with ((((h | h) | h) | h) | h) | h <;> subst h <;> decide

theorem dropWhile_pyWhitespace_of_digits (cs : List Char)
    (hd : ∀ c ∈ cs, c.isDigit = true) : cs.dropWhile pyWhitespace = cs := by
  cases cs with
  | nil => rfl
  | cons c cs =>
    rw [List.dropWhile_cons]
    have hw : pyWhitespace c = false := by
      cases hwc : pyWhitespace c with
      | false => rfl
      | true =>
        have := isDigit_false_of_pyWhitespace c hwc
        rw [hd c (List.mem_cons_self c cs)] at this
        cases this
    simp [hw]

theorem stripChars_of_digits (cs : List Char)
    (hd : ∀ c ∈ cs, c.isDigit = true) : stripChars cs = cs := by
  unfold stripChars
  rw [dropWhile_pyWhitespace_of_digits cs hd]
  rw [dropWhile_pyWhitespace_of_digits cs.reverse
    (fun c hc => hd c (List.mem_reverse.mp hc))]
  exact List.reverse_reverse cs

theorem pyStrToInt_nonneg_of_digits (s : String) (v : Int)
    (hd : ∀ c ∈ s.toList, c.isDigit = true) (h : pyStrToInt s = some v) :
    0 ≤ v := by
  unfold pyStrToInt at h
  rw [stripChars_of_digits s.toList hd] at h
  split at h
  · rename_i rest heq
    have := hd '+' (by rw [heq]; exact List.mem_cons_self _ _)
    cases this
  · rename_i rest heq
    have := hd '-' (by rw [heq]; exact List.mem_cons_self _ _)
    cases this
  · split at h
    · simp only [Option.some.injEq] at h
      rw [← h]
      exact Int.ofNat_nonneg _
    · cases h

theorem price_conversion_digits (s : String) :
    ∀ c ∈ (price_conversion s).toList, c.isDigit = true := by
  intro c hc
  have : (price_conversion s).toList
      = (s.toList.takeWhile (fun c => c != '.')).filter Char.isDigit := rfl
  rw [this] at hc
  exact (List.mem_filter.mp hc).2

theorem seller_get_offer_ids_go_spec (ps : List seller.Page) :
    ∀ acc : List String,
      seller.get_offer_ids_go ps acc
        = (firstStopIdx sellerStop (fun p => p.items.length) ps acc.length).map
            (fun n => (acc ++ ((ps.take n).map seller.Page.items).flatten, n)) := by
  induction ps with
  | nil => intro acc; simp [seller.get_offer_ids_go, firstStopIdx]
  | cons p ps ih =>
    intro acc
    rw [seller.get_offer_ids_go, firstStopIdx]
    by_cases hc : p.total = acc.length + p.items.length
    · rw [if_pos (by simp [hc]), if_pos (by simp [sellerStop, hc])]
      simp
    · rw [if_neg (by simpa using hc), if_neg (by simpa [sellerStop] using hc)]
      rw [ih (acc ++ p.items)]
      simp only [Option.map_map, List.length_append]
      congr 1
      funext k
      simp [List.take_succ_cons, List.append_assoc]

theorem seller_main_prices_nil (rows : List VendorRow) (K : List String)
    (hK : K.Nodup) (ps : List seller.PriceRecord)
    (h : seller.main_prices rows K = .ok ps) : ps = [] := by
  unfold seller.main_prices at h
  cases hcs : seller.create_stocks rows K with
  | error e => rw [hcs] at h; cases h
  | ok pr =>
    obtain ⟨st, rem⟩ := pr
    rw [hcs] at h
    simp only [Except.ok.injEq] at h
    subst h
    unfold seller.create_stocks at hcs
    cases hgo : seller.create_stocks_go rows K with
    | error e => rw [hgo] at hcs; cases hcs
    | ok pr0 =>
      obtain ⟨matched, rem0⟩ := pr0
      rw [hgo] at hcs
      simp only [Except.ok.injEq, Prod.mk.injEq] at hcs
      obtain ⟨h1, h2⟩ := hcs
      subst h2
      have hnot := seller.create_stocks_go_code_notin_rem rows K matched rem0 hK hgo
      rw [seller.create_prices_eq]
      have hfil : rows.filter (fun w => decide (w.code ∈ rem0)) = [] := by
        rw [List.filter_eq_nil_iff]
        intro w hw
        simpa using hnot w hw
      rw [hfil]
      rfl

theorem market_get_offer_ids_go_spec (ps : List market.Page) :
    ∀ acc : List String,
      market.get_offer_ids_go ps acc
        = (firstStopIdx marketStop (fun p => p.entries.length) ps acc.length).map
            (fun n => (acc ++ ((ps.take n).map market.Page.entries).flatten, n)) := by
  induction ps with
  | nil => intro acc; simp [market.get_offer_ids_go, firstStopIdx]
  | cons p ps ih =>
    intro acc
    rw [market.get_offer_ids_go, firstStopIdx]
    by_cases hc : p.nextPageToken = ""
    · rw [if_pos hc, if_pos (by simp [marketStop, hc])]
      simp
    · rw [if_neg hc, if_neg (by simp [marketStop, hc])]
      rw [ih (acc ++ p.entries)]
      simp only [Option.map_map, List.length_append]
      congr 1
      funext k
      simp [List.take_succ_cons, List.append_assoc]

/-- C1: for every vendor row list and duplicate-free known-offer-id list K,
the offer-id (resp. sku) multiset of the stock list produced by
`create_stocks` — in seller.py and in market.py — is exactly K: every id of
K appears in exactly one record, no id twice, no id outside K. -/
theorem claim_C1_stock_coverage
    (rows : List VendorRow) (K : List String)
    (st : List seller.StockRecord) (rem : List String)
    (stm : List market.StockRecord) (remm : List String)
    (wid date : String)
    (hK : K.Nodup)
    (hs : seller.create_stocks rows K = .ok (st, rem))
    (hm : market.create_stocks rows K wid date = .ok (stm, remm)) :
    ((st.map seller.StockRecord.offer_id).Perm K
      ∧ (st.map seller.StockRecord.offer_id).Nodup)
    ∧ ((stm.map market.StockRecord.sku).Perm K
      ∧ (stm.map market.StockRecord.sku).Nodup) := by
  constructor
  · unfold seller.create_stocks at hs
    cases hgo : seller.create_stocks_go rows K with
    | error e => rw [hgo] at hs; cases hs
    | ok pr =>
      obtain ⟨matched, rem0⟩ := pr
      rw [hgo] at hs
      simp only [Except.ok.injEq, Prod.mk.injEq] at hs
      obtain ⟨h1, h2⟩ := hs
      subst h1
      have hmap : ((matched ++ rem0.map fun i => (⟨i, 0⟩ : seller.StockRecord)).map
          seller.StockRecord.offer_id)
          = matched.map seller.StockRecord.offer_id ++ rem0 := by
        rw [List.map_append, List.map_map]
        have hcomp : (seller.StockRecord.offer_id ∘ fun i =>
            ({ offer_id := i, stock := 0 } : seller.StockRecord)) = id := rfl
        rw [hcomp, List.map_id]
      have hperm := (seller.create_stocks_go_perm rows K matched rem0 hgo).1
      rw [hmap]
      exact ⟨hperm, hperm.nodup_iff.mpr hK⟩
  · unfold market.create_stocks at hm
    cases hgo : market.create_stocks_go rows K wid date with
    | error e => rw [hgo] at hm; cases hm
    | ok pr =>
      obtain ⟨matched, rem0⟩ := pr
      rw [hgo] at hm
      simp only [Except.ok.injEq, Prod.mk.injEq] at hm
      obtain ⟨h1, h2⟩ := hm
      subst h1
      have hmap : ((matched ++ rem0.map fun i =>
            (⟨i, wid, [⟨0, "FIT", date⟩]⟩ : market.StockRecord)).map
          market.StockRecord.sku)
          = matched.map market.StockRecord.sku ++ rem0 := by
        rw [List.map_append, List.map_map]
        have hcomp : (market.StockRecord.sku ∘ fun i =>
            ({ sku := i, warehouseId := wid,
               items := [{ count := 0, type := "FIT", updatedAt := date }] } :
              market.StockRecord)) = id := rfl
        rw [hcomp, List.map_id]
      have hperm := (market.create_stocks_go_perm_market rows wid date K matched rem0 hgo).1
      rw [hmap]
      exact ⟨hperm, hperm.nodup_iff.mpr hK⟩

/-- Witness for C1 at a concrete input: one matched row, K = ["A", "B"]. -/
theorem claim_C1_stock_coverage_witness :
    ((([⟨"A", 100⟩, ⟨"B", 0⟩] : List seller.StockRecord).map
        seller.StockRecord.offer_id).Perm ["A", "B"]
      ∧ (([⟨"A", 100⟩, ⟨"B", 0⟩] : List seller.StockRecord).map
        seller.StockRecord.offer_id).Nodup)
    ∧ ((([⟨"A", "W", [⟨100, "FIT", "D"⟩]⟩, ⟨"B", "W", [⟨0, "FIT", "D"⟩]⟩] :
          List market.StockRecord).map market.StockRecord.sku).Perm ["A", "B"]
      ∧ (([⟨"A", "W", [⟨100, "FIT", "D"⟩]⟩, ⟨"B", "W", [⟨0, "FIT", "D"⟩]⟩] :
          List market.StockRecord).map market.StockRecord.sku).Nodup) :=
  claim_C1_stock_coverage [⟨"A", ">10", "p"⟩] ["A", "B"]
    [⟨"A", 100⟩, ⟨"B", 0⟩] ["B"]
    [⟨"A", "W", [⟨100, "FIT", "D"⟩]⟩, ⟨"B", "W", [⟨0, "FIT", "D"⟩]⟩] ["B"]
    "W" "D" (by decide) (by rfl) (by rfl)

/-- C2: in seller.py's `main`, the price list pushed after the stock push is
empty even when an offer id is present in both the vendor feed and the
fetched catalog, because `create_stocks` consumed the shared `offer_ids`
list: evaluation at vendor row with code "A" and catalog ["A"]. -/
theorem claim_C2_main_price_push :
    seller.main_prices [⟨"A", "5", "100.00 x"⟩] ["A"] = .ok []
    ∧ "A" ∈ (([⟨"A", "5", "100.00 x"⟩] : List VendorRow).map VendorRow.code)
    ∧ "A" ∈ (["A"] : List String) := by
  refine ⟨by rfl, by simp, by simp⟩

/-- C3: the quantity normalization maps ">10" to 100 and "1" to 0, parses any
other string as a base-10 integer, fails with ValueError on non-numeric
input, and a matched row with quantity "abc" makes `create_stocks` fail in
both seller.py and market.py. -/
theorem claim_C3_quantity_normalization :
    normalize_quantity ">10" = .ok 100
    ∧ normalize_quantity "1" = .ok 0
    ∧ (∀ (q : String) (k : Int), q ≠ ">10" → q ≠ "1" → pyStrToInt q = some k →
        normalize_quantity q = .ok k)
    ∧ (∀ q : String, q ≠ ">10" → q ≠ "1" → pyStrToInt q = none →
        normalize_quantity q = .error .valueError)
    ∧ pyStrToInt "abc" = none
    ∧ seller.create_stocks [⟨"A", "abc", "1.0"⟩] ["A"] = .error .valueError
    ∧ market.create_stocks [⟨"A", "abc", "1.0"⟩] ["A"] "W" "D"
        = .error .valueError := by
  refine ⟨by rfl, by rfl, ?_, ?_, by rfl, by rfl, by rfl⟩
  · intro q k h1 h2 hp
    unfold normalize_quantity
    rw [if_neg h1, if_neg h2, hp]
  · intro q h1 h2 hp
    unfold normalize_quantity
    rw [if_neg h1, if_neg h2, hp]

/-- Witness for C3: "7" is neither sentinel and parses, so it normalizes to 7. -/
theorem claim_C3_quantity_normalization_witness :
    normalize_quantity "7" = .ok 7 :=
  claim_C3_quantity_normalization.2.2.1 "7" 7 (by decide) (by decide) (by rfl)

/-- C4: `price_conversion` does NOT fail on an input without a `.`: it
returns the digit-stripped whole string ("5990" stays "5990"), while on the
documented format it behaves as specified ("5'990.00 руб." gives "5990"). -/
theorem claim_C4_price_conversion_no_dot :
    price_conversion "5990" = "5990"
    ∧ price_conversion "5'990.00 руб." = "5990" := ⟨rfl, rfl⟩

/-- C5: for n > 0 `divide` chunks correctly (concatenation restores the
list, all chunks but the last have length n, the empty list gives no
chunks); but for n < 0 it yields no chunks instead of failing — only n = 0
raises ValueError. -/
theorem claim_C5_divide_batches :
    (∀ (α : Type) (l : List α) (n : Int), 0 < n →
        divide l n = .ok (chunksOf n.toNat l)
        ∧ (chunksOf n.toNat l).flatten = l
        ∧ (∀ c ∈ (chunksOf n.toNat l).dropLast, c.length = n.toNat)
        ∧ divide ([] : List α) n = .ok [])
    ∧ divide ([1, 2] : List Nat) (-1) = .ok []
    ∧ divide ([1] : List Nat) 0 = .error .valueError := by
  refine ⟨?_, by rfl, by rfl⟩
  intro α l n hn
  have hn0 : (0 : Nat) < n.toNat := by omega
  have hne : ¬n = 0 := by omega
  have hnlt : ¬n < 0 := by omega
  have hdiv : ∀ l0 : List α, divide l0 n = .ok (chunksOf n.toNat l0) := by
    intro l0
    unfold divide
    rw [if_neg hne, if_neg hnlt]
  refine ⟨hdiv l, chunksOf_join n.toNat hn0 l,
    chunksOf_dropLast_length n.toNat hn0 l, ?_⟩
  rw [hdiv []]
  simp [chunksOf]

/-- Witness for C5 at l = [1,2,3,4,5], n = 2. -/
theorem claim_C5_divide_batches_witness :
    divide ([1, 2, 3, 4, 5] : List Nat) 2 = .ok (chunksOf (2 : Int).toNat [1, 2, 3, 4, 5])
    ∧ (chunksOf (2 : Int).toNat ([1, 2, 3, 4, 5] : List Nat)).flatten = [1, 2, 3, 4, 5]
    ∧ (∀ c ∈ (chunksOf (2 : Int).toNat ([1, 2, 3, 4, 5] : List Nat)).dropLast,
        c.length = (2 : Int).toNat)
    ∧ divide ([] : List Nat) 2 = .ok [] :=
  claim_C5_divide_batches.1 Nat [1, 2, 3, 4, 5] 2 (by decide)

/-- C6: the stock list of seller.py's `create_stocks` is the matched records
(a subsequence of the vendor-feed code order) followed by the zero-count
records in known-offer-id order (the remaining ids form a sublist of K);
on the spec's end-to-end scenario the result is [{A,100},{B,0},{C,0}]. -/
theorem claim_C6_stock_order
    (rows : List VendorRow) (K : List String)
    (st : List seller.StockRecord) (rem : List String)
    (h : seller.create_stocks rows K = .ok (st, rem)) :
    (∃ matched : List seller.StockRecord,
        st = matched ++ rem.map (fun i => (⟨i, 0⟩ : seller.StockRecord))
        ∧ (matched.map seller.StockRecord.offer_id).Sublist (rows.map VendorRow.code)
        ∧ rem.Sublist K)
    ∧ seller.create_stocks
        [⟨"A", ">10", "100.00 x"⟩, ⟨"B", "1", "50.00 x"⟩] ["A", "B", "C"]
      = .ok ([⟨"A", 100⟩, ⟨"B", 0⟩, ⟨"C", 0⟩], ["C"]) := by
  refine ⟨?_, by rfl⟩
  unfold seller.create_stocks at h
  cases hgo : seller.create_stocks_go rows K with
  | error e => rw [hgo] at h; cases h
  | ok pr =>
    obtain ⟨matched, rem0⟩ := pr
    rw [hgo] at h
    simp only [Except.ok.injEq, Prod.mk.injEq] at h
    obtain ⟨h1, h2⟩ := h
    subst h2
    exact ⟨matched, h1.symm,
      seller.create_stocks_go_matched_sublist rows K matched rem0 hgo,
      (seller.create_stocks_go_perm rows K matched rem0 hgo).2⟩

/-- Witness for C6 at one matched row and K = ["A", "B"]. -/
theorem claim_C6_stock_order_witness :
    (∃ matched : List seller.StockRecord,
        ([⟨"A", 100⟩, ⟨"B", 0⟩] : List seller.StockRecord)
          = matched ++ (["B"] : List String).map (fun i => (⟨i, 0⟩ : seller.StockRecord))
        ∧ (matched.map seller.StockRecord.offer_id).Sublist
            (([⟨"A", ">10", "x"⟩] : List VendorRow).map VendorRow.code)
        ∧ (["B"] : List String).Sublist ["A", "B"])
    ∧ seller.create_stocks
        [⟨"A", ">10", "100.00 x"⟩, ⟨"B", "1", "50.00 x"⟩] ["A", "B", "C"]
      = .ok ([⟨"A", 100⟩, ⟨"B", 0⟩, ⟨"C", 0⟩], ["C"]) :=
  claim_C6_stock_order [⟨"A", ">10", "x"⟩] ["A", "B"]
    [⟨"A", 100⟩, ⟨"B", 0⟩] ["B"] (by rfl)

/-- C7 counterexample: a first page whose next-token is empty (the claimed
stop signal) but whose reported total exceeds the accumulated count: the
spec-side stop index is 1, yet seller.py's loop consumes 2 pages. -/
theorem claim_C7_pagination_counterexample :
    firstStopIdx specStopSeller (fun p => p.items.length)
        [⟨["a"], 2, ""⟩, ⟨["b"], 2, ""⟩] 0 = some 1
    ∧ (seller.get_offer_ids_go [⟨["a"], 2, ""⟩, ⟨["b"], 2, ""⟩] []).map Prod.snd
        = some 2 := ⟨rfl, rfl⟩

/-- C7 (amended): each client implements a single stop condition — seller.py
stops exactly at the first page where the reported total equals the
accumulated item count, market.py exactly at the first page whose
next-token is empty/absent — and each returns the accumulated items of the
consumed pages in page order. -/
theorem claim_C7_pagination_stop (psS : List seller.Page) (psM : List market.Page) :
    seller.get_offer_ids_go psS []
      = (firstStopIdx sellerStop (fun p => p.items.length) psS 0).map
          (fun n => (((psS.take n).map seller.Page.items).flatten, n))
    ∧ market.get_offer_ids_go psM []
      = (firstStopIdx marketStop (fun p => p.entries.length) psM 0).map
          (fun n => (((psM.take n).map market.Page.entries).flatten, n)) := by
  constructor
  · have h := seller_get_offer_ids_go_spec psS []
    simpa using h
  · have h := market_get_offer_ids_go_spec psM []
    simpa using h

/-- C8: `create_prices` emits exactly one record per vendor row whose code
is in K, in vendor-feed order (it equals the map over the filtered rows),
for both marketplaces; hence every emitted offer id lies in K and among the
vendor codes. -/
theorem claim_C8_price_reconciliation (rows : List VendorRow) (K : List String) :
    ((seller.create_prices rows K).map seller.PriceRecord.offer_id
        = (rows.filter (fun w => decide (w.code ∈ K))).map VendorRow.code)
    ∧ (∀ i ∈ (seller.create_prices rows K).map seller.PriceRecord.offer_id,
        i ∈ K ∧ i ∈ rows.map VendorRow.code)
    ∧ (∀ ps, market.create_prices rows K = .ok ps →
        ps.map market.PriceRecord.id
          = (rows.filter (fun w => decide (w.code ∈ K))).map VendorRow.code
        ∧ ∀ i ∈ ps.map market.PriceRecord.id, i ∈ K ∧ i ∈ rows.map VendorRow.code) := by
  have hmem : ∀ i ∈ (rows.filter (fun w => decide (w.code ∈ K))).map VendorRow.code,
      i ∈ K ∧ i ∈ rows.map VendorRow.code := by
    intro i hi
    obtain ⟨w, hw, hwc⟩ := List.mem_map.mp hi
    obtain ⟨hwr, hwk⟩ := List.mem_filter.mp hw
    subst hwc
    exact ⟨by simpa using hwk, List.mem_map_of_mem VendorRow.code hwr⟩
  have hs : (seller.create_prices rows K).map seller.PriceRecord.offer_id
      = (rows.filter (fun w => decide (w.code ∈ K))).map VendorRow.code := by
    rw [seller.create_prices_eq, List.map_map]
    rfl
  refine ⟨hs, by rw [hs]; exact hmem, ?_⟩
  intro ps hps
  have hm : ps.map market.PriceRecord.id
      = (rows.filter (fun w => decide (w.code ∈ K))).map VendorRow.code := by
    rw [market.create_prices_eq_market rows K ps hps, List.map_map]
    rfl
  exact ⟨hm, by rw [hm]; exact hmem⟩

/-- Witness for C8: the market half at one matched row. -/
theorem claim_C8_price_reconciliation_witness :
    (([⟨"A", ⟨5, "RUR"⟩⟩] : List market.PriceRecord).map market.PriceRecord.id
      = (([⟨"A", "1", "5.x"⟩] : List VendorRow).filter
          (fun w => decide (w.code ∈ (["A"] : List String)))).map VendorRow.code)
    ∧ ∀ i ∈ ([⟨"A", ⟨5, "RUR"⟩⟩] : List market.PriceRecord).map market.PriceRecord.id,
        i ∈ (["A"] : List String)
        ∧ i ∈ ([⟨"A", "1", "5.x"⟩] : List VendorRow).map VendorRow.code :=
  (claim_C8_price_reconciliation [⟨"A", "1", "5.x"⟩] ["A"]).2.2
    [⟨"A", ⟨5, "RUR"⟩⟩] (by rfl)

/-- C9 counterexample: a Yandex Market price record carries currencyId
"RUR", not "RUB". -/
theorem claim_C9_currency_counterexample :
    market.create_prices [⟨"A", "1", "5.x"⟩] ["A"] = .ok [⟨"A", ⟨5, "RUR"⟩⟩]
    ∧ ("RUR" : String) ≠ "RUB" := ⟨rfl, by decide⟩

/-- C9 (amended): every Ozon price record carries currency_code "RUB" and a
digit-only amount string (an integral amount with no minor units); every
Yandex Market record carries an integer value ≥ 0 and currencyId "RUR". -/
theorem claim_C9_price_record_fields (rows : List VendorRow) (K : List String) :
    (∀ p ∈ seller.create_prices rows K,
        p.currency_code = "RUB" ∧ ∀ c ∈ p.price.toList, c.isDigit = true)
    ∧ (∀ ps, market.create_prices rows K = .ok ps →
        ∀ p ∈ ps, p.price.currencyId = "RUR" ∧ 0 ≤ p.price.value) := by
  constructor
  · intro p hp
    rw [seller.create_prices_eq] at hp
    obtain ⟨w, hw, hwp⟩ := List.mem_map.mp hp
    subst hwp
    exact ⟨rfl, price_conversion_digits w.price⟩
  · intro ps hps p hp
    rw [market.create_prices_eq_market rows K ps hps] at hp
    obtain ⟨w, hw, hwp⟩ := List.mem_map.mp hp
    subst hwp
    refine ⟨rfl, ?_⟩
    cases hv : pyStrToInt (price_conversion w.price) with
    | none => simp [hv]
    | some v =>
      simp only [hv, Option.getD_some]
      exact pyStrToInt_nonneg_of_digits (price_conversion w.price) v
        (price_conversion_digits w.price) hv

/-- Witness for C9 at one matched row on the Ozon side. -/
theorem claim_C9_price_record_fields_witness :
    (⟨"UNKNOWN", "RUB", "A", "0", "5"⟩ : seller.PriceRecord).currency_code = "RUB"
    ∧ ∀ c ∈ (⟨"UNKNOWN", "RUB", "A", "0", "5"⟩ : seller.PriceRecord).price.toList,
        c.isDigit = true :=
  (claim_C9_price_record_fields [⟨"A", "1", "5.x"⟩] ["A"]).1
    ⟨"UNKNOWN", "RUB", "A", "0", "5"⟩ (by decide)

/-- C10 counterexample: a matched vendor row with quantity "-5" produces a
stock record with count -5 < 0. -/
theorem claim_C10_negative_count_counterexample :
    seller.create_stocks [⟨"A", "-5", "x"⟩] ["A"] = .ok ([⟨"A", -5⟩], [])
    ∧ ((-5 : Int) < 0) := ⟨rfl, by decide⟩

/-- C10 (amended): every stock record carries a count ≥ 0 whenever every
vendor quantity that normalizes successfully yields a non-negative value
(in particular for all-digit quantity strings), for both marketplaces. -/
theorem claim_C10_stock_nonneg
    (rows : List VendorRow) (K : List String)
    (st : List seller.StockRecord) (rem : List String)
    (stm : List market.StockRecord) (remm : List String)
    (wid date : String)
    (hq : ∀ w ∈ rows, ∀ k : Int, normalize_quantity w.quantity = .ok k → 0 ≤ k)
    (hs : seller.create_stocks rows K = .ok (st, rem))
    (hm : market.create_stocks rows K wid date = .ok (stm, remm)) :
    (∀ s ∈ st, 0 ≤ s.stock)
    ∧ (∀ s ∈ stm, ∀ it ∈ s.items, 0 ≤ it.count) := by
  constructor
  · unfold seller.create_stocks at hs
    cases hgo : seller.create_stocks_go rows K with
    | error e => rw [hgo] at hs; cases hs
    | ok pr =>
      obtain ⟨matched, rem0⟩ := pr
      rw [hgo] at hs
      simp only [Except.ok.injEq, Prod.mk.injEq] at hs
      obtain ⟨h1, h2⟩ := hs
      subst h1
      intro s hsm
      rcases List.mem_append.mp hsm with hmem | hmem
      · obtain ⟨w, hw, hnw⟩ :=
          seller.create_stocks_go_counts rows K matched rem0 hgo s hmem
        exact hq w hw s.stock hnw
      · obtain ⟨i, hi, hiw⟩ := List.mem_map.mp hmem
        rw [← hiw]
  · unfold market.create_stocks at hm
    cases hgo : market.create_stocks_go rows K wid date with
    | error e => rw [hgo] at hm; cases hm
    | ok pr =>
      obtain ⟨matched, rem0⟩ := pr
      rw [hgo] at hm
      simp only [Except.ok.injEq, Prod.mk.injEq] at hm
      obtain ⟨h1, h2⟩ := hm
      subst h1
      intro s hsm it hit
      rcases List.mem_append.mp hsm with hmem | hmem
      · obtain ⟨w, hw, hnw⟩ :=
          market.create_stocks_go_counts_market rows wid date K matched rem0 hgo s hmem it hit
        exact hq w hw it.count hnw
      · obtain ⟨i, hi, hiw⟩ := List.mem_map.mp hmem
        rw [← hiw] at hit
        simp only [List.mem_singleton] at hit
        rw [hit]

/-- Witness for C10 at one row with quantity ">10" and K = ["A", "B"]. -/
theorem claim_C10_stock_nonneg_witness :
    (∀ s ∈ ([⟨"A", 100⟩, ⟨"B", 0⟩] : List seller.StockRecord), 0 ≤ s.stock)
    ∧ (∀ s ∈ ([⟨"A", "W", [⟨100, "FIT", "D"⟩]⟩, ⟨"B", "W", [⟨0, "FIT", "D"⟩]⟩] :
          List market.StockRecord), ∀ it ∈ s.items, 0 ≤ it.count) :=
  claim_C10_stock_nonneg [⟨"A", ">10", "x"⟩] ["A", "B"]
    [⟨"A", 100⟩, ⟨"B", 0⟩] ["B"]
    [⟨"A", "W", [⟨100, "FIT", "D"⟩]⟩, ⟨"B", "W", [⟨0, "FIT", "D"⟩]⟩] ["B"]
    "W" "D"
    (by
      intro w hw k hk
      have hw2 : w = ⟨"A", ">10", "x"⟩ := by simpa using hw
      rw [hw2] at hk
      have hk2 : (Except.ok (100 : Int) : Except PyError Int) = .ok k := hk
      injection hk2 with h
      omega)
    (by rfl) (by rfl)

end SellerApis
